import Mathlib

/-!
Shallow embedding of the peer-interview shuffle scheduler of `bootcamp.py`
(functions `make_interview`, `assign_interviews`, the relation-building loop of
`make_shuffle`, and the override-processing of `reassign`), together with the
Canvas-side helpers of `canvaslms.py` that those functions drive
(`add_peer_reviewers`, `remove_peer_reviewers`).

Conventions used throughout:
* Python runtime errors (`IndexError` from an out-of-range list subscript,
  `ValueError` from `int()` on a non-numeric string) are modelled by `Option`:
  a result of `none` means the Python code raises and the run aborts.
* `random.shuffle(xs)` permutes the list `xs` in place.  Each call site takes
  an oracle (`shuffles : Nat → List String`, indexed by how many shuffles have
  happened so far) giving the list contents after each in-place shuffle; the
  faithfulness side condition `(shuffles it).Perm xs` (every oracle output is a
  permutation of the pool) appears as a hypothesis in the theorems.
* Python `dict` is modelled by an association list with Python's insertion
  semantics: assigning to an existing key overwrites it in place, assigning to
  a fresh key appends at the end.
-/

/-- Python `dict` assignment `m[k] = v`: overwrite an existing key in place,
otherwise append the new binding at the end (insertion order preserved). -/
def dictInsert {α β : Type} [DecidableEq α] (m : List (α × β)) (k : α) (v : β) :
    List (α × β) :=
  match m with
  | [] => [(k, v)]
  | (k0, v0) :: rest => if k0 = k then (k, v) :: rest else (k0, v0) :: dictInsert rest k v

/-- Python `dict` read `m[k]` / `k in m`: the binding of the first (and, for
lists built by `dictInsert`, only) occurrence of the key. -/
def dictLookup {α β : Type} [DecidableEq α] (m : List (α × β)) (k : α) : Option β :=
  match m with
  | [] => none
  | (k0, v) :: rest => if k0 = k then some v else dictLookup rest k

/-- The decimal-digit parse underlying Python `int(s)` for the plain
nonnegative numerals that appear as chapter prefixes; `none` models the
`ValueError` raised on an empty or non-numeric string. -/
def parseNatDigits (cs : List Char) : Option Nat :=
  if cs = [] then none
  else if cs.all (fun c => c.isDigit) then
    some (cs.foldl (fun n c => 10 * n + (c.toNat - 48)) 0)
  else none

/-- Python `int(s)` on the strings reaching it here: an optional leading minus
sign followed by decimal digits; `none` models `ValueError`. -/
def parseIntStr (cs : List Char) : Option Int :=
  match cs with
  | '-' :: rest => (parseNatDigits rest).map (fun n => -(n : Int))
  | _ => (parseNatDigits cs).map (fun n => (n : Int))

/-- Python `x.split('.')[0]`: the prefix of the string up to (excluding) the
first `'.'`, or the whole string when it contains no `'.'`. -/
def takeUntilDot : List Char → List Char
  | [] => []
  | c :: rest => if c = '.' then [] else c :: takeUntilDot rest

/-- `int(x.split('.')[0])` from `make_interview`: the chapter number embedded
in a question identifier; `none` models the `ValueError` raised when the
prefix is not numeric (in particular on a blank question line). -/
def chapterOf (q : String) : Option Int :=
  parseIntStr (takeUntilDot q.data)

/-- `list(map(lambda x: int(x.split('.')[0]), qs))`: chapter extraction over a
question list; `none` models the `ValueError` raised by the first
unparseable entry. -/
def mapChapters : List String → Option (List Int)
  | [] => some []
  | q :: rest =>
    match chapterOf q, mapChapters rest with
    | some c, some cs => some (c :: cs)
    | _, _ => none

/-- One iteration body of the question-draw loop of `make_interview`, applied
to the pool contents `qs` produced by that iteration's `random.shuffle`:

* `f3chap` is the chapter list of the first three shuffled questions;
* on iterations `it < 24` the draw is retried when two of the three chapters
  coincide (`f3chap[0] == f3chap[1] or f3chap[1] == f3chap[2] or
  f3chap[0] == f3chap[2]`, evaluated with Python's short-circuit `or`, so the
  subscripts are only touched as far as the first `True`);
* otherwise the loop exits iff `sum(f3chap) != 3 * f3chap[0]`.

`some true` means the loop `break`s accepting this draw, `some false` means it
goes on to the next iteration, `none` means a runtime error (`IndexError` from
a subscript past the end of `f3chap`, or `ValueError` from `int`). -/
def checkDraw (it : Nat) (qs : List String) : Option Bool :=
  match mapChapters (qs.take 3) with
  | none => none
  | some f3chap =>
    let retry : Option Bool :=
      if it < 24 then
        match f3chap.get? 0, f3chap.get? 1 with
        | some a, some b =>
          if a = b then some true
          else
            match f3chap.get? 2 with
            | some c => some (decide (b = c) || decide (a = c))
            | none => none
        | _, _ => none
      else some false
    match retry with
    | none => none
    | some true => some false
    | some false =>
      match f3chap.get? 0 with
      | none => none
      | some a => some (decide (f3chap.sum ≠ 3 * a))

/-- The `for it in range(32)` question-draw loop of `make_interview`, with
`fuel` iterations left and `it` iterations already begun.  Each iteration
first replaces the pool by `shuffles it` (the in-place `random.shuffle`), then
runs `checkDraw`.  When the loop exhausts all 32 iterations without a `break`,
the pool keeps the contents of the final shuffle (`shuffles (it - 1)`). -/
def drawLoopAux (shuffles : Nat → List String) : Nat → Nat → Option (List String)
  | 0, it => some (shuffles (it - 1))
  | fuel + 1, it =>
    let qs := shuffles it
    match checkDraw it qs with
    | none => none
    | some true => some qs
    | some false => drawLoopAux shuffles fuel (it + 1)

/-- The full 32-iteration question-draw loop:
`for it in range(32): random.shuffle(questions); ...`. -/
def drawLoop (shuffles : Nat → List String) : Option (List String) :=
  drawLoopAux shuffles 32 0

/-- The `[interviewee, rev_interviewer] + questions[:3]` record built by
`make_interview`: entry 0 is the participant this interviewer will interview,
entry 1 is the participant who will interview them, entries 2.. are the three
drawn questions. -/
structure InterviewEntry where
  interviewee : String
  myInterviewer : String
  questions : List String
deriving DecidableEq

/-- `make_interview(interviewers, i, questions)` from `bootcamp.py`.
`shuffles` is the oracle for the successive in-place `random.shuffle`s of
`questions` (the `questions` argument itself records the pool contents on
entry; after the first shuffle only its multiset survives).  The interviewee
is `interviewers[i+1]` with wraparound to `interviewers[0]`, the reverse
interviewer is `interviewers[i-1]` with wraparound to the last entry; `none`
models an uncaught runtime error.  The returned pair carries the entry
together with the pool contents left behind by the in-place shuffles. -/
def make_interview (interviewers : List String) (i : Nat) (questions : List String)
    (shuffles : Nat → List String) : Option (InterviewEntry × List String) :=
  match (if i + 1 < interviewers.length then interviewers.get? (i + 1)
         else interviewers.get? 0),
        (if 0 < i then interviewers.get? (i - 1)
         else interviewers.get? (interviewers.length - 1)),
        drawLoop shuffles with
  | some interviewee, some rev_interviewer, some qs =>
    some (⟨interviewee, rev_interviewer, qs.take 3⟩, qs)
  | _, _, _ => none

/-- The pre-pass of `assign_interviews`: `split()` leaves an empty final
element when the input file ends with a newline, so the last element is
dropped when (and only when) it is the empty string. -/
def stripTrailingBlank (l : List String) : List String :=
  if l.getLast? = some "" then l.dropLast else l

/-- The `for interviewer in interviewers:` loop of `assign_interviews`:
iterate over the (already shuffled) ring, calling `make_interview` for each
position and storing the result under the interviewer's name.  `qsh i` is the
shuffle oracle consumed by the `i`-th call; `qs` threads the in-place pool
state from call to call. -/
def assignLoop (ring : List String) (qsh : Nat → Nat → List String) :
    List String → Nat → List (String × InterviewEntry) → List String →
    Option (List (String × InterviewEntry) × List String)
  | [], _, acc, qs => some (acc, qs)
  | interviewer :: rest, i, acc, qs =>
    match make_interview ring i qs (qsh i) with
    | none => none
    | some (e, qs') => assignLoop ring qsh rest (i + 1) (dictInsert acc interviewer e) qs'

/-- `assign_interviews(interviewers, questions)` from `bootcamp.py`: strip one
trailing blank from each input list, shuffle the interviewers (`ringOf` models
`random.shuffle(interviewers)`; the theorems require its output to be a
permutation of its input), then build the interview dictionary.  The result
carries the final state of the question pool mutated in place by the draws. -/
def assign_interviews (interviewers questions : List String)
    (ringOf : List String → List String) (qsh : Nat → Nat → List String) :
    Option (List (String × InterviewEntry) × List String) :=
  let interviewers' := stripTrailingBlank interviewers
  let questions' := stripTrailingBlank questions
  let ring := ringOf interviewers'
  assignLoop ring qsh ring 0 [] questions'

/-- The relation-building loop of `make_shuffle`: for every
`(interviewer, iview)` in the interview dictionary set
`assessment_reviews[iview[0]] = interviewer` (the interviewer peer-reviews the
interviewee's assessment submission) and
`feedback_reviews[interviewer] = iview[0]` (the interviewee peer-reviews the
interviewer's feedback submission). -/
def buildRelations (interviews : List (String × InterviewEntry)) :
    List (String × String) × List (String × String) :=
  interviews.foldl
    (fun acc p =>
      (dictInsert acc.1 p.2.interviewee p.1, dictInsert acc.2 p.1 p.2.interviewee))
    ([], [])

/-- The "who do I interview" function read off an interview dictionary;
participants without an entry are mapped to themselves (never hit in the
theorems below). -/
def intervieweeFun (m : List (String × InterviewEntry)) (p : String) : String :=
  match dictLookup m p with
  | some e => e.interviewee
  | none => p

/-- Python `pair.partition(':')` projected to (head, tail): split at the first
`':'`; when the separator does not occur the tail is the empty string. -/
def partitionColonAux : List Char → Option (List Char × List Char)
  | [] => none
  | c :: rest =>
    if c = ':' then some ([], rest)
    else
      match partitionColonAux rest with
      | some (pre, post) => some (c :: pre, post)
      | none => none

/-- `interviewer, _, interviewee = pair.partition(':')` from `reassign`. -/
def partitionColon (s : String) : String × String :=
  match partitionColonAux s.data with
  | some (pre, post) => (⟨pre⟩, ⟨post⟩)
  | none => (s, "")

/-- `Course.peer_review_user_link(assign_id, reviewee_uid)` from
`canvaslms.py`: the empty string for a negative uid, otherwise the URL of the
reviewee's submission under the assignment (host prefix abstracted). -/
def peer_review_user_link (assign_id reviewee_uid : Int) : String :=
  if reviewee_uid < 0 then ""
  else "/assignments/" ++ toString assign_id ++ "/submissions/" ++ toString reviewee_uid

/-- The accumulator state of the `for pair in remargs:` loop of `reassign`.
`reports` collects the `print` output of the loop (one string per line). -/
structure ReassignState where
  interviewers : List (Int × String)
  assessment_comments : List (Int × List String)
  feedback_comments : List (Int × String)
  assessment_reviews : List (String × String)
  feedback_reviews : List (String × String)
  reports : List String
deriving DecidableEq

/-- `Grade.add` on the `assessment_comments` dictionary of `reassign`: the
entry is created empty when absent (`if uid not in assessment_comments:
assessment_comments[uid] = Grade()`), then the comment is appended. -/
def gradeAdd (m : List (Int × List String)) (k : Int) (c : String) :
    List (Int × List String) :=
  match dictLookup m k with
  | some cs => dictInsert m k (cs ++ [c])
  | none => dictInsert m k [c]

/-- One iteration of the override loop of `reassign` for the argument `pair`.
`d` models `course.get_student_id` (directory resolution; `none` models the
Python `None`), `fid` is the feedback assignment id.  An unresolved (or
negative) interviewer uid prints `Interviewer "<interviewer>" not found` and
skips the pair; an unresolved interviewee uid prints
`Interviewee "<interviewer>" not found` — the source formats the
**interviewer** into the interviewee message — and skips the pair; otherwise
the pair is recorded in all five dictionaries. -/
def reassignStep (d : String → Option Int) (fid : Int) (st : ReassignState)
    (pair : String) : ReassignState :=
  let interviewer := (partitionColon pair).1
  let interviewee := (partitionColon pair).2
  match d interviewer with
  | none =>
    { st with reports := st.reports ++ ["Interviewer \"" ++ interviewer ++ "\" not found"] }
  | some interviewer_uid =>
    if interviewer_uid < 0 then
      { st with reports := st.reports ++ ["Interviewer \"" ++ interviewer ++ "\" not found"] }
    else
      match d interviewee with
      | none =>
        { st with reports := st.reports ++ ["Interviewee \"" ++ interviewer ++ "\" not found"] }
      | some interviewee_uid =>
        if interviewee_uid < 0 then
          { st with reports := st.reports ++ ["Interviewee \"" ++ interviewer ++ "\" not found"] }
        else
          let fb_link := peer_review_user_link fid interviewer_uid
          let new_interviewer_comment :=
            "You have been assigned a new interviewer: " ++ interviewer ++ "\n" ++
              "The feedback peer review link is: " ++ fb_link ++ "\n"
          let new_interviewee_comment :=
            "You have been re-assigned to interview: " ++ interviewee
          { interviewers := dictInsert st.interviewers interviewer_uid interviewer
            assessment_comments :=
              gradeAdd (gradeAdd st.assessment_comments interviewee_uid new_interviewer_comment)
                interviewer_uid new_interviewee_comment
            feedback_comments :=
              dictInsert st.feedback_comments interviewee_uid
                ("Your interview has been re-assigned.\n" ++
                  "Your new interviewer is: " ++ interviewer ++ "\n" ++
                  "The feedback link is: " ++ fb_link ++ "\n")
            assessment_reviews := dictInsert st.assessment_reviews interviewee interviewer
            feedback_reviews := dictInsert st.feedback_reviews interviewer interviewee
            reports := st.reports }

/-- The entire override loop of `reassign`, starting from empty
dictionaries. -/
def processOverrides (d : String → Option Int) (fid : Int)
    (overrides : List String) : ReassignState :=
  overrides.foldl (reassignStep d fid) ⟨[], [], [], [], [], []⟩

/-- The externally visible Canvas calls issued by `reassign` after the
override loop, in issue order. -/
inductive CanvasCall where
  | removeReviewers (assign_id : Int) (students : List Int)
  | addReviewers (assign_id : Int) (reviews : List (String × String))
  | uploadGrades (assign_id : Int) (students : List Int)
deriving DecidableEq

/-- The sequence of Canvas calls issued by `reassign` for the shuffle
(assessment) assignment `aid` and the feedback assignment `fid`: remove the
interviewees' assessment reviewers, install the new assessment reviewers,
upload the assessment comments, remove the interviewers' feedback reviewers,
install the new feedback reviewers, upload the feedback comments. -/
def reassignTrace (d : String → Option Int) (aid fid : Int)
    (overrides : List String) : List CanvasCall :=
  let st := processOverrides d fid overrides
  [CanvasCall.removeReviewers aid (st.feedback_comments.map Prod.fst),
   CanvasCall.addReviewers aid st.assessment_reviews,
   CanvasCall.uploadGrades aid (st.assessment_comments.map Prod.fst),
   CanvasCall.removeReviewers fid (st.interviewers.map Prod.fst),
   CanvasCall.addReviewers fid st.feedback_reviews,
   CanvasCall.uploadGrades fid (st.feedback_comments.map Prod.fst)]

/-- Pointwise update of a Canvas peer-review store (submission owner uid ↦
uids of the reviewers currently assigned to that submission). -/
def storeSet (st : Int → List Int) (k : Int) (v : List Int) : Int → List Int :=
  fun x => if x = k then v else st x

/-- `Course.remove_peer_reviewers(students, assign_id)` from `canvaslms.py`
acting on the store of one assignment: for each listed submission-owner uid
(skipping unknown/dropped uids and owners without a submission, `hasSub`
modelling `find_student_submission`), delete every reviewer currently
assigned to that owner's submission. -/
def applyRemove (hasSub : Int → Bool) (store : Int → List Int)
    (students : List Int) : Int → List Int :=
  students.foldl
    (fun st uid =>
      if uid < 0 then st
      else if hasSub uid then storeSet st uid []
      else st)
    store

/-- `Course.add_peer_reviewers(reviewer_map, assign_id)` from `canvaslms.py`
acting on the store of one assignment: for each `(student, reviewer)` pair
resolve both logins (skipping the pair when either is unknown or dropped, or
when the student has no submission) and add the reviewer's uid to the
student's submission. -/
def applyAdd (d : String → Option Int) (hasSub : Int → Bool)
    (store : Int → List Int) (reviews : List (String × String)) : Int → List Int :=
  reviews.foldl
    (fun st p =>
      match d p.1, d p.2 with
      | some su, some ru =>
        if su < 0 ∨ ru < 0 then st
        else if hasSub su then storeSet st su (st su ++ [ru])
        else st
      | _, _ => st)
    store

/-- The effect of one whole `reassign` run on the two external peer-review
stores (`sa` for the assessment assignment, `sf` for the feedback
assignment), composing the four mutating Canvas calls of `reassignTrace` in
issue order. -/
def reassignStores (d : String → Option Int) (hasSub : Int → Bool) (fid : Int)
    (overrides : List String) (sa sf : Int → List Int) :
    (Int → List Int) × (Int → List Int) :=
  let st := processOverrides d fid overrides
  (applyAdd d hasSub (applyRemove hasSub sa (st.feedback_comments.map Prod.fst))
      st.assessment_reviews,
   applyAdd d hasSub (applyRemove hasSub sf (st.interviewers.map Prod.fst))
      st.feedback_reviews)

/-- A concrete participant directory for the scenario claims: `ann`, `bob`,
`cam` resolve to uids 1, 2, 3; everything else is unknown. -/
def scenarioDir : String → Option Int := fun s =>
  if s = "ann" then some 1
  else if s = "bob" then some 2
  else if s = "cam" then some 3
  else none

/-- C3: the claim says a draw on attempts 1-24 is accepted exactly when the
three chapters are pairwise distinct, and on attempts 25-32 exactly when they
are not all identical.  The code instead exits the loop only when
`sum(f3chap) != 3 * f3chap[0]`: a shuffle whose first three chapters are
`(2, 1, 3)` — pairwise distinct, hence not all identical — has
`2 + 1 + 3 = 3 * 2`, so the draw is rejected in both phases
(`checkDraw` yields `some false`, "keep looping"), contradicting the claim and
the source's own comment `we'll accept anything except all three questions
from the same chapter`. -/
theorem checkDraw_fallback_mismatch :
    mapChapters ["2.1", "1.1", "3.1"] = some [2, 1, 3] ∧
    checkDraw 0 ["2.1", "1.1", "3.1"] = some false ∧
    checkDraw 24 ["2.1", "1.1", "3.1"] = some false ∧
    ((2 : Int) ≠ 1 ∧ (1 : Int) ≠ 3 ∧ (2 : Int) ≠ 3) := by
  decide

/-- C4 counterexample: the claim says question selection never fails for any
non-empty pool, "including pools with fewer than three questions".  On the
one-question pool `["1.1"]` the subscript `f3chap[1]` raises `IndexError`
(modelled as `none`), and on the two-question pool `["1.1", "2.1"]` with
distinct chapters the subscript `f3chap[2]` raises — `make_interview` aborts
instead of returning a triple. -/
theorem make_interview_small_pool_error :
    make_interview ["a", "b"] 0 ["1.1"] (fun _ => ["1.1"]) = none ∧
    make_interview ["a", "b"] 0 ["1.1", "2.1"] (fun _ => ["1.1", "2.1"]) = none ∧
    (["1.1"] : List String) ≠ [] := by
  decide

/-- C7 counterexample: the claim says scheduling with an empty question pool
fails for every non-empty participant sequence.  For the non-empty sequence
`[""]` (a single blank line) the trailing-blank strip empties the roster, the
loop body never runs, and `assign_interviews` returns the completed (empty)
mapping with no error. -/
theorem assign_interviews_blank_only_no_error :
    assign_interviews [""] [] (fun l => l) (fun _ _ => []) = some ([], []) ∧
    ([""] : List String) ≠ [] := by
  decide

/-- C8 counterexample: the claim says the ordering of the caller's question
pool is unchanged after `make_interview` returns.  With the caller's pool in
order `["1.1", "2.1", "3.1"]`, a first in-place shuffle to
`["3.1", "1.1", "2.1"]` (a permutation of the pool, as `random.shuffle`
guarantees) is accepted at once (chapters 3, 1, 2 are pairwise distinct and
`3 + 1 + 2 ≠ 3 * 3`), and the pool the caller sees afterwards is
`["3.1", "1.1", "2.1"]` — a different ordering. -/
theorem make_interview_mutates_pool_order :
    (["3.1", "1.1", "2.1"] : List String).Perm ["1.1", "2.1", "3.1"] ∧
    make_interview ["a", "b"] 0 ["1.1", "2.1", "3.1"] (fun _ => ["3.1", "1.1", "2.1"]) =
      some (⟨"b", "b", ["3.1", "1.1", "2.1"]⟩, ["3.1", "1.1", "2.1"]) ∧
    (["3.1", "1.1", "2.1"] : List String) ≠ ["1.1", "2.1", "3.1"] := by
  decide

/-- C9 counterexample: the claim says the scheduler schedules over exactly the
entries it was given, including blank entries, stripping nothing itself.  On
the participant list `["a", "b", ""]` (trailing blank from file input, ring
shuffle taken as the identity permutation) the mapping's keys are `["a", "b"]`:
`assign_interviews` itself strips the trailing blank entry. -/
theorem assign_interviews_strips_trailing_blank :
    (assign_interviews ["a", "b", ""] ["1.1", "2.1", "3.1"] (fun l => l)
        (fun _ _ => ["1.1", "2.1", "3.1"])).map (fun r => r.1.map Prod.fst) =
      some ["a", "b"] ∧
    (["a", "b"] : List String) ≠ ["a", "b", ""] := by
  decide

/-- C6: an override whose interviewee fails to resolve is skipped without
touching either review relation, and the remaining overrides are still
processed — but the failure report names the wrong identity.  For the override
`"ann:ghost"` (resolvable interviewer `ann`, unknown interviewee `ghost`) the
code prints `Interviewee "ann" not found`, formatting the interviewer instead
of the unresolved interviewee, because the source interpolates `interviewer`
into the interviewee message.  (For an unresolved interviewer, as in the
spec's `"ghost:bob"` scenario, the report is correct.) -/
theorem reassign_unresolved_interviewee_report :
    (processOverrides scenarioDir 9 ["ann:ghost"]).reports =
      ["Interviewee \"ann\" not found"] ∧
    (processOverrides scenarioDir 9 ["ann:ghost"]).assessment_reviews = [] ∧
    (processOverrides scenarioDir 9 ["ann:ghost"]).feedback_reviews = [] ∧
    (processOverrides scenarioDir 9 ["ann:ghost", "bob:cam"]).assessment_reviews =
      [("cam", "bob")] ∧
    (processOverrides scenarioDir 9 ["ann:ghost", "bob:cam"]).feedback_reviews =
      [("bob", "cam")] ∧
    (processOverrides scenarioDir 9 ["ghost:bob"]).reports =
      ["Interviewer \"ghost\" not found"] ∧
    (processOverrides scenarioDir 9 ["ghost:bob"]).assessment_reviews = [] ∧
    (processOverrides scenarioDir 9 ["ghost:bob"]).feedback_reviews = [] := by
  decide

/-- C5: in the Canvas call sequence issued by `reassign`, the removal of the
stale reviewer links from the interviewees' assessment submissions (position
0) strictly precedes the installation of the new assessment reviewer links
(position 1), and the removal of the stale feedback reviewer links from the
interviewers' feedback submissions (position 3) strictly precedes the
installation of the new feedback links (position 4) — for every directory and
every override batch.  In particular, for the override `"ann:cam"` when cam's
assessment submission previously carried the bob→cam link, the call that
deletes cam's (uid 3) existing reviewer links is issued strictly before the
call installing the new ann→cam link. -/
theorem reassign_remove_before_install :
    (∀ (d : String → Option Int) (aid fid : Int) (overrides : List String),
      ∃ ra ia rf if2 : Nat, ra < ia ∧ rf < if2 ∧
        (reassignTrace d aid fid overrides).get? ra =
          some (CanvasCall.removeReviewers aid
            ((processOverrides d fid overrides).feedback_comments.map Prod.fst)) ∧
        (reassignTrace d aid fid overrides).get? ia =
          some (CanvasCall.addReviewers aid
            (processOverrides d fid overrides).assessment_reviews) ∧
        (reassignTrace d aid fid overrides).get? rf =
          some (CanvasCall.removeReviewers fid
            ((processOverrides d fid overrides).interviewers.map Prod.fst)) ∧
        (reassignTrace d aid fid overrides).get? if2 =
          some (CanvasCall.addReviewers fid
            (processOverrides d fid overrides).feedback_reviews)) ∧
    reassignTrace scenarioDir 7 9 ["ann:cam"] =
      [CanvasCall.removeReviewers 7 [3],
       CanvasCall.addReviewers 7 [("cam", "ann")],
       CanvasCall.uploadGrades 7 [3, 1],
       CanvasCall.removeReviewers 9 [1],
       CanvasCall.addReviewers 9 [("ann", "cam")],
       CanvasCall.uploadGrades 9 [3]] := by
  constructor
  · intro d aid fid overrides
    exact ⟨0, 1, 3, 4, by omega, by omega, rfl, rfl, rfl, rfl⟩
  · decide

theorem head?_drop_eq {α : Type} (l : List α) : ∀ i, (l.drop i).head? = l.get? i := by
  induction l with
  | nil => intro i; simp
  | cons a t ih =>
    intro i
    cases i with
    | zero => simp
    | succ j => simpa using ih j

theorem drop_succ_eq {α : Type} (l : List α) : ∀ i, l.drop (i + 1) = (l.drop i).tail := by
  induction l with
  | nil => intro i; simp
  | cons a t ih =>
    intro i
    cases i with
    | zero => simp
    | succ j => simpa using ih j

theorem getLast?_mem_self {α : Type} : ∀ (l : List α) (a : α), l.getLast? = some a → a ∈ l := by
  intro l
  induction l with
  | nil => intro a h; cases h
  | cons x t ih =>
    intro a h
    cases t with
    | nil =>
      simp only [List.getLast?_singleton, Option.some.injEq] at h
      simp [h]
    | cons y s =>
      rw [List.getLast?_cons_cons] at h
      exact List.mem_cons_of_mem x (ih a h)

theorem stripTrailingBlank_of_not_blank (l : List String) (h : "" ∉ l) :
    stripTrailingBlank l = l := by
  unfold stripTrailingBlank
  rw [if_neg]
  intro hc
  exact h (getLast?_mem_self l "" hc)

theorem dictInsert_fresh {α β : Type} [DecidableEq α] :
    ∀ (m : List (α × β)) (k : α) (v : β), k ∉ m.map Prod.fst →
      dictInsert m k v = m ++ [(k, v)] := by
  intro m
  induction m with
  | nil => intro k v _; rfl
  | cons p rest ih =>
    intro k v h
    obtain ⟨k0, v0⟩ := p
    simp only [List.map_cons, List.mem_cons] at h
    push_neg at h
    simp only [dictInsert, List.cons_append]
    rw [if_neg (fun hh => h.1 hh.symm), ih k v h.2]

theorem dictInsert_fresh_keys {α β : Type} [DecidableEq α] (m : List (α × β)) (k : α) (v : β)
    (h : k ∉ m.map Prod.fst) :
    (dictInsert m k v).map Prod.fst = m.map Prod.fst ++ [k] := by
  rw [dictInsert_fresh m k v h]
  simp

theorem dictLookup_mem_nodup {α β : Type} [DecidableEq α] :
    ∀ (m : List (α × β)) (k : α) (v : β), (m.map Prod.fst).Nodup → (k, v) ∈ m →
      dictLookup m k = some v := by
  intro m
  induction m with
  | nil => intro k v _ h; cases h
  | cons p rest ih =>
    intro k v hnd hmem
    obtain ⟨k0, v0⟩ := p
    simp only [List.map_cons, List.nodup_cons] at hnd
    rcases List.mem_cons.mp hmem with heq | hrest
    · injection heq with h1 h2
      subst h1; subst h2
      simp [dictLookup]
    · have hk : k0 ≠ k := by
        intro hk0
        subst hk0
        exact hnd.1 (List.mem_map.mpr ⟨(k0, v), hrest, rfl⟩)
      simp only [dictLookup, if_neg hk]
      exact ih k v hnd.2 hrest

theorem mapChapters_isSome :
    ∀ (l : List String), (∀ q ∈ l, (chapterOf q).isSome) →
      ∃ cs, mapChapters l = some cs ∧ cs.length = l.length := by
  intro l
  induction l with
  | nil => intro _; exact ⟨[], rfl, rfl⟩
  | cons q rest ih =>
    intro h
    obtain ⟨c, hc⟩ := Option.isSome_iff_exists.mp (h q (by simp))
    obtain ⟨cs, hcs, hlen⟩ := ih (fun x hx => h x (by simp [hx]))
    exact ⟨c :: cs, by simp [mapChapters, hc, hcs], by simp [hlen]⟩

theorem checkDraw_isSome (qpool : List String)
    (hq : ∀ q ∈ qpool, (chapterOf q).isSome) (hlen : 3 ≤ qpool.length)
    (it : Nat) (qs : List String) (hperm : qs.Perm qpool) :
    ∃ b, checkDraw it qs = some b := by
  have hq3 : ∀ q ∈ qs.take 3, (chapterOf q).isSome := fun q hmem =>
    hq q (hperm.mem_iff.mp ((List.take_sublist 3 qs).subset hmem))
  obtain ⟨cs, hcs, hlencs⟩ := mapChapters_isSome (qs.take 3) hq3
  have h3 : cs.length = 3 := by
    rw [hlencs, List.length_take]
    have := hperm.length_eq
    omega
  obtain ⟨a, b, c, rfl⟩ := List.length_eq_three.mp h3
  simp only [checkDraw, hcs]
  by_cases h24 : it < 24
  · simp only [if_pos h24]
    by_cases hab : a = b
    · simp [hab]
    · by_cases hbc : b = c
      · simp [hab, hbc]
      · by_cases hac : a = c
        · simp [hab, hbc, hac]
        · simp [hab, hbc, hac]
          exact em _
  · simp [if_neg h24]
    exact em _

theorem drawLoopAux_isSome (sh : Nat → List String)
    (h : ∀ it, ∃ b, checkDraw it (sh it) = some b) :
    ∀ fuel it, ∃ qf j, drawLoopAux sh fuel it = some qf ∧ qf = sh j := by
  intro fuel
  induction fuel with
  | zero => intro it; exact ⟨sh (it - 1), it - 1, rfl, rfl⟩
  | succ n ih =>
    intro it
    obtain ⟨b, hb⟩ := h it
    cases b with
    | false =>
      obtain ⟨qf, j, h1, h2⟩ := ih (it + 1)
      exact ⟨qf, j, by simp only [drawLoopAux, hb]; exact h1, h2⟩
    | true => exact ⟨sh it, it, by simp only [drawLoopAux, hb], rfl⟩

theorem drawLoopAux_shape (sh : Nat → List String) :
    ∀ fuel it qf, drawLoopAux sh fuel it = some qf → ∃ j, qf = sh j := by
  intro fuel
  induction fuel with
  | zero =>
    intro it qf h
    simp only [drawLoopAux, Option.some.injEq] at h
    exact ⟨it - 1, h.symm⟩
  | succ n ih =>
    intro it qf h
    simp only [drawLoopAux] at h
    cases hcd : checkDraw it (sh it) with
    | none => rw [hcd] at h; cases h
    | some b =>
      rw [hcd] at h
      cases b with
      | false => exact ih (it + 1) qf h
      | true =>
        simp only [Option.some.injEq] at h
        exact ⟨it, h.symm⟩

theorem drawLoopAux_all_continue (sh : Nat → List String)
    (h : ∀ it, it < 32 → checkDraw it (sh it) = some false) :
    ∀ fuel it, it + fuel = 32 → drawLoopAux sh fuel it = some (sh 31) := by
  intro fuel
  induction fuel with
  | zero =>
    intro it hit
    have h32 : it = 32 := by omega
    subst h32
    rfl
  | succ n ih =>
    intro it hit
    have hlt : it < 32 := by omega
    simp only [drawLoopAux, h it hlt]
    exact ih (it + 1) (by omega)

theorem wrapNext_get (l : List String) (i : Nat) (hi : i < l.length) :
    (if i + 1 < l.length then l.get? (i + 1) else l.get? 0) =
      some (l.getD ((i + 1) % l.length) "") := by
  have hN : 0 < l.length := Nat.lt_of_le_of_lt (Nat.zero_le i) hi
  by_cases h : i + 1 < l.length
  · rw [if_pos h, Nat.mod_eq_of_lt h, List.get?_eq_get h, List.getD_eq_get l "" h]
  · have he : i + 1 = l.length := by omega
    rw [if_neg h, he, Nat.mod_self, List.get?_eq_get hN, List.getD_eq_get l "" hN]

theorem wrapPrev_get (l : List String) (i : Nat) (hi : i < l.length) :
    (if 0 < i then l.get? (i - 1) else l.get? (l.length - 1)) =
      some (l.getD ((i + l.length - 1) % l.length) "") := by
  have hN : 0 < l.length := Nat.lt_of_le_of_lt (Nat.zero_le i) hi
  by_cases h : 0 < i
  · have hlt : i - 1 < l.length := by omega
    have he : (i + l.length - 1) % l.length = i - 1 := by
      have h1 : i + l.length - 1 = (i - 1) + l.length := by omega
      rw [h1, Nat.add_mod_right, Nat.mod_eq_of_lt hlt]
    rw [if_pos h, he, List.get?_eq_get hlt, List.getD_eq_get l "" hlt]
  · have h0 : i = 0 := by omega
    have hlt : l.length - 1 < l.length := by omega
    have he : (i + l.length - 1) % l.length = l.length - 1 := by
      rw [h0, Nat.zero_add, Nat.mod_eq_of_lt hlt]
    rw [if_neg h, he, List.get?_eq_get hlt, List.getD_eq_get l "" hlt]

theorem make_interview_spec (ring : List String) (i : Nat) (qs qpool : List String)
    (sh : Nat → List String) (hi : i < ring.length)
    (hsh : ∀ it, (sh it).Perm qpool)
    (hq : ∀ q ∈ qpool, (chapterOf q).isSome) (hlen : 3 ≤ qpool.length) :
    ∃ qf, drawLoop sh = some qf ∧
      make_interview ring i qs sh =
        some (⟨ring.getD ((i + 1) % ring.length) "",
               ring.getD ((i + ring.length - 1) % ring.length) "", qf.take 3⟩, qf) ∧
      qf.Perm qpool := by
  have hcd : ∀ it, ∃ b, checkDraw it (sh it) = some b := fun it =>
    checkDraw_isSome qpool hq hlen it (sh it) (hsh it)
  obtain ⟨qf, j, hdl, hqj⟩ := drawLoopAux_isSome sh hcd 32 0
  refine ⟨qf, hdl, ?_, hqj ▸ hsh j⟩
  simp only [make_interview, wrapNext_get ring i hi, wrapPrev_get ring i hi, drawLoop, hdl]

theorem assignLoop_spec (ring qpool : List String) (qsh : Nat → Nat → List String)
    (hnd : ring.Nodup)
    (hsh : ∀ i it, (qsh i it).Perm qpool)
    (hq : ∀ q ∈ qpool, (chapterOf q).isSome) (hlen : 3 ≤ qpool.length) :
    ∀ (rem : List String) (i : Nat) (acc : List (String × InterviewEntry)) (qs : List String),
      ring.drop i = rem →
      (∀ x ∈ acc.map Prod.fst, x ∉ rem) →
      qs.Perm qpool →
      ∃ (tl : List (String × InterviewEntry)) (qfin : List String),
        assignLoop ring qsh rem i acc qs = some (acc ++ tl, qfin) ∧
        tl.map Prod.fst = rem ∧
        qfin.Perm qpool ∧
        ∀ k, k < tl.length →
          ∃ e : InterviewEntry, tl.get? k = some (ring.getD (i + k) "", e) ∧
            e.interviewee = ring.getD ((i + k + 1) % ring.length) "" ∧
            e.myInterviewer = ring.getD ((i + k + ring.length - 1) % ring.length) "" := by
  intro rem
  induction rem with
  | nil =>
    intro i acc qs _ _ hqp
    exact ⟨[], qs, by simp [assignLoop], rfl, hqp, fun k hk => absurd hk (by simp)⟩
  | cons p rest ih =>
    intro i acc qs hdrop hfresh hqp
    have hi : i < ring.length := by
      by_contra hcon
      push_neg at hcon
      rw [List.drop_eq_nil_of_le hcon] at hdrop
      cases hdrop
    have hget : ring.get? i = some p := by
      rw [← head?_drop_eq ring i, hdrop]
      rfl
    have hpd : p = ring.getD i "" := by
      rw [List.getD_eq_get ring "" hi]
      have := List.get?_eq_get (l := ring) hi
      rw [hget] at this
      exact (Option.some.injEq _ _ ▸ this : some p = some _) |> Option.some.inj
    have hdrop' : ring.drop (i + 1) = rest := by
      rw [drop_succ_eq ring i, hdrop]
      rfl
    obtain ⟨qf, _, hmk, hqf⟩ := make_interview_spec ring i qs qpool (qsh i) hi (hsh i) hq hlen
    have hp_fresh : p ∉ acc.map Prod.fst := fun hx => hfresh p hx (List.mem_cons_self p rest)
    have hrest_nodup : p ∉ rest := by
      have hsub : (p :: rest).Nodup := by
        rw [← hdrop]
        exact (List.drop_sublist i ring).nodup hnd
      exact (List.nodup_cons.mp hsub).1
    set E : InterviewEntry :=
      ⟨ring.getD ((i + 1) % ring.length) "",
       ring.getD ((i + ring.length - 1) % ring.length) "", qf.take 3⟩ with hE
    have hfresh' : ∀ x ∈ (acc ++ [(p, E)]).map Prod.fst, x ∉ rest := by
      intro x hx
      simp only [List.map_append, List.mem_append, List.map_cons, List.map_nil,
        List.mem_singleton] at hx
      rcases hx with hx | hx
      · exact fun hr => hfresh x hx (List.mem_cons_of_mem p hr)
      · rw [hx]
        exact hrest_nodup
    obtain ⟨tl, qfin, hrun, hkeys, hqperm, hidx⟩ :=
      ih (i + 1) (acc ++ [(p, E)]) qf hdrop' hfresh' hqf
    refine ⟨(p, E) :: tl, qfin, ?_, ?_, hqperm, ?_⟩
    · simp only [assignLoop, hmk]
      rw [dictInsert_fresh acc p E hp_fresh, hrun, List.append_assoc]
      rfl
    · simp [hkeys]
    · intro k hk
      cases k with
      | zero =>
        refine ⟨E, ?_, ?_, ?_⟩
        · rw [Nat.add_zero, ← hpd]
          rfl
        · rfl
        · rfl
      | succ k' =>
        have hk' : k' < tl.length := by
          simp only [List.length_cons] at hk
          omega
        obtain ⟨e, h1, h2, h3⟩ := hidx k' hk'
        refine ⟨e, ?_, ?_, ?_⟩
        · have : i + (k' + 1) = i + 1 + k' := by omega
          rw [this]
          simpa using h1
        · have : i + (k' + 1) + 1 = i + 1 + k' + 1 := by omega
          rw [this]
          exact h2
        · have : i + (k' + 1) + ring.length - 1 = i + 1 + k' + ring.length - 1 := by omega
          rw [this]
          exact h3

theorem assign_interviews_spec (participants questions : List String)
    (ringOf : List String → List String) (qsh : Nat → Nat → List String)
    (ring qpool : List String)
    (hring : ring = ringOf (stripTrailingBlank participants))
    (hqpool : qpool = stripTrailingBlank questions)
    (hrnd : ring.Nodup)
    (hq : ∀ q ∈ qpool, (chapterOf q).isSome) (hlen : 3 ≤ qpool.length)
    (hsh : ∀ i it, (qsh i it).Perm qpool) :
    ∃ (m : List (String × InterviewEntry)) (qfin : List String),
      assign_interviews participants questions ringOf qsh = some (m, qfin) ∧
      m.map Prod.fst = ring ∧
      qfin.Perm qpool ∧
      m.length = ring.length ∧
      ∀ k, k < ring.length →
        ∃ e : InterviewEntry, m.get? k = some (ring.getD k "", e) ∧
          e.interviewee = ring.getD ((k + 1) % ring.length) "" ∧
          e.myInterviewer = ring.getD ((k + ring.length - 1) % ring.length) "" := by
  obtain ⟨tl, qfin, hrun, hkeys, hqperm, hidx⟩ :=
    assignLoop_spec ring qpool qsh hrnd hsh hq hlen ring 0 [] qpool
      (List.drop_zero ring) (by simp) (List.Perm.refl qpool)
  have hml : tl.length = ring.length := by
    rw [← hkeys, List.length_map]
  refine ⟨tl, qfin, ?_, hkeys, hqperm, hml, ?_⟩
  · show assign_interviews participants questions ringOf qsh = some (tl, qfin)
    show assignLoop (ringOf (stripTrailingBlank participants)) qsh
        (ringOf (stripTrailingBlank participants)) 0 [] (stripTrailingBlank questions) =
      some (tl, qfin)
    rw [← hring, ← hqpool]
    rw [hrun]
    simp
  · intro k hk
    obtain ⟨e, h1, h2, h3⟩ := hidx k (by omega)
    rw [Nat.zero_add] at h1 h2 h3
    exact ⟨e, h1, h2, h3⟩

theorem nodup_getD_inj (ring : List String) (hrnd : ring.Nodup) :
    ∀ i j, i < ring.length → j < ring.length →
      ring.getD i "" = ring.getD j "" → i = j := by
  intro i j hi hj he
  rw [List.getD_eq_get ring "" hi, List.getD_eq_get ring "" hj] at he
  exact congrArg Fin.val (hrnd.get_inj_iff.mp he)

theorem chapterOf_blank_none : chapterOf "" = none := by
  decide

/-- C1: for every valid (duplicate-free, blank-free: the spec requires
pre-cleaned participant identifiers) participant sequence of size at least 2
and every question pool with at least 3 entries (each carrying a parseable
chapter prefix, as the data model prescribes for questions), and for every
ring shuffle `ringOf` and every family of in-place pool shuffles `qsh`,
`assign_interviews` succeeds and returns a mapping whose keys are exactly the
participants, whose interviewee function is a single N-cycle over the
participants (iterating it N times from any participant returns to that
participant, and no earlier positive iterate does — hence no fixed points and
no sub-cycles), and in which every participant occurs exactly once as a key,
exactly once as an interviewee value, and exactly once as a myInterviewer
value. -/
theorem assign_interviews_single_cycle
    (participants questions : List String)
    (ringOf : List String → List String) (qsh : Nat → Nat → List String)
    (hnd : participants.Nodup) (hN : 2 ≤ participants.length)
    (hblank : "" ∉ participants)
    (hql : 3 ≤ questions.length) (hq : ∀ q ∈ questions, (chapterOf q).isSome)
    (hperm : (ringOf participants).Perm participants)
    (hsh : ∀ i it, (qsh i it).Perm questions) :
    ∃ (m : List (String × InterviewEntry)) (qfin : List String),
      assign_interviews participants questions ringOf qsh = some (m, qfin) ∧
      (m.map Prod.fst).Perm participants ∧
      (∀ p ∈ participants,
        (m.map Prod.fst).count p = 1 ∧
        (m.map (fun x => x.2.interviewee)).count p = 1 ∧
        (m.map (fun x => x.2.myInterviewer)).count p = 1) ∧
      (∀ p ∈ participants,
        (intervieweeFun m)^[participants.length] p = p ∧
        ∀ k, 0 < k → k < participants.length → (intervieweeFun m)^[k] p ≠ p) := by
  have hstrip_p : stripTrailingBlank participants = participants :=
    stripTrailingBlank_of_not_blank participants hblank
  have hqblank : "" ∉ questions := by
    intro hmem
    have h1 := hq "" hmem
    rw [chapterOf_blank_none] at h1
    cases h1
  have hstrip_q : stripTrailingBlank questions = questions :=
    stripTrailingBlank_of_not_blank questions hqblank
  have hrperm : (ringOf participants).Perm participants := hperm
  have hrnd : (ringOf participants).Nodup := hrperm.nodup_iff.mpr hnd
  have hNr : (ringOf participants).length = participants.length := hrperm.length_eq
  have hN0 : 0 < (ringOf participants).length := by omega
  obtain ⟨m, qfin, hrun, hkeys, hqperm, hml, hidx⟩ :=
    assign_interviews_spec participants questions ringOf qsh
      (ringOf participants) questions (by rw [hstrip_p]) (by rw [hstrip_q])
      hrnd hq hql hsh
  have hstep : ∀ j, j < (ringOf participants).length →
      intervieweeFun m ((ringOf participants).getD j "") =
        (ringOf participants).getD ((j + 1) % (ringOf participants).length) "" := by
    intro j hj
    obtain ⟨e, h1, h2, _⟩ := hidx j hj
    have hmem : ((ringOf participants).getD j "", e) ∈ m := List.get?_mem h1
    have hl : dictLookup m ((ringOf participants).getD j "") = some e :=
      dictLookup_mem_nodup m _ e (by rw [hkeys]; exact hrnd) hmem
    unfold intervieweeFun
    rw [hl]
    exact h2
  have hiter : ∀ t j, j < (ringOf participants).length →
      (intervieweeFun m)^[t] ((ringOf participants).getD j "") =
        (ringOf participants).getD ((j + t) % (ringOf participants).length) "" := by
    intro t
    induction t with
    | zero => intro j hj; simp [Nat.mod_eq_of_lt hj]
    | succ t iht =>
      intro j hj
      rw [Function.iterate_succ_apply', iht j hj]
      have hjt : (j + t) % (ringOf participants).length < (ringOf participants).length :=
        Nat.mod_lt _ hN0
      rw [hstep _ hjt, Nat.mod_add_mod]
      rfl
  have hindex : ∀ p ∈ participants, ∃ j, j < (ringOf participants).length ∧
      p = (ringOf participants).getD j "" := by
    intro p hp
    have hpr : p ∈ ringOf participants := hrperm.mem_iff.mpr hp
    obtain ⟨⟨j, hj⟩, hget⟩ := List.mem_iff_get.mp hpr
    exact ⟨j, hj, by rw [List.getD_eq_get (ringOf participants) "" hj, hget]⟩
  have hVee : m.map (fun x => x.2.interviewee) = (ringOf participants).rotate 1 := by
    apply List.ext
    intro n
    by_cases hn : n < (ringOf participants).length
    · obtain ⟨e, h1, h2, _⟩ := hidx n hn
      rw [List.get?_map, h1, List.get?_rotate hn]
      have hlt : (n + 1) % (ringOf participants).length < (ringOf participants).length :=
        Nat.mod_lt _ hN0
      rw [List.get?_eq_get hlt]
      simp only [Option.map_some']
      rw [h2, List.getD_eq_get (ringOf participants) "" hlt]
    · push_neg at hn
      rw [List.get?_eq_none.mpr (by rw [List.length_map]; omega),
        List.get?_eq_none.mpr (by rw [List.length_rotate]; omega)]
  have hWee : m.map (fun x => x.2.myInterviewer) =
      (ringOf participants).rotate ((ringOf participants).length - 1) := by
    apply List.ext
    intro n
    by_cases hn : n < (ringOf participants).length
    · obtain ⟨e, h1, _, h3⟩ := hidx n hn
      rw [List.get?_map, h1, List.get?_rotate hn]
      have harith : (n + ((ringOf participants).length - 1)) % (ringOf participants).length =
          (n + (ringOf participants).length - 1) % (ringOf participants).length := by
        have : n + ((ringOf participants).length - 1) =
            n + (ringOf participants).length - 1 := by omega
        rw [this]
      rw [harith]
      have hlt : (n + (ringOf participants).length - 1) % (ringOf participants).length <
          (ringOf participants).length := Nat.mod_lt _ hN0
      rw [List.get?_eq_get hlt]
      simp only [Option.map_some']
      rw [h3, List.getD_eq_get (ringOf participants) "" hlt]
    · push_neg at hn
      rw [List.get?_eq_none.mpr (by rw [List.length_map]; omega),
        List.get?_eq_none.mpr (by rw [List.length_rotate]; omega)]
  refine ⟨m, qfin, hrun, by rw [hkeys]; exact hrperm, ?_, ?_⟩
  · intro p hp
    have hpring : p ∈ ringOf participants := hrperm.mem_iff.mpr hp
    refine ⟨?_, ?_, ?_⟩
    · rw [hkeys]
      exact List.count_eq_one_of_mem hrnd hpring
    · rw [hVee, ((ringOf participants).rotate_perm 1).count_eq]
      exact List.count_eq_one_of_mem hrnd hpring
    · rw [hWee, ((ringOf participants).rotate_perm _).count_eq]
      exact List.count_eq_one_of_mem hrnd hpring
  · intro p hp
    obtain ⟨j, hj, hpj⟩ := hindex p hp
    constructor
    · rw [hpj, hiter participants.length j hj]
      have he : (j + participants.length) % (ringOf participants).length = j := by
        rw [← hNr, Nat.add_mod_right, Nat.mod_eq_of_lt hj]
      rw [he]
    · intro k hk0 hkN heq
      rw [hpj, hiter k j hj] at heq
      have hmlt : (j + k) % (ringOf participants).length < (ringOf participants).length :=
        Nat.mod_lt _ hN0
      have hjeq := nodup_getD_inj (ringOf participants) hrnd _ _ hmlt hj heq
      have hkN' : k < (ringOf participants).length := by omega
      rcases Nat.lt_or_ge (j + k) (ringOf participants).length with hc | hc
      · rw [Nat.mod_eq_of_lt hc] at hjeq
        omega
      · rw [Nat.mod_eq_sub_mod hc, Nat.mod_eq_of_lt (by omega)] at hjeq
        omega

/-- Witness for C1 at the concrete roster `["ann", "bob", "cam"]` and pool
`["1.1", "2.2", "3.3"]`, with the identity ring shuffle and constant pool
shuffles. -/
theorem assign_interviews_single_cycle_witness :
    ((["ann", "bob", "cam"] : List String).Nodup ∧
      2 ≤ (["ann", "bob", "cam"] : List String).length ∧
      "" ∉ (["ann", "bob", "cam"] : List String) ∧
      3 ≤ (["1.1", "2.2", "3.3"] : List String).length ∧
      (∀ q ∈ (["1.1", "2.2", "3.3"] : List String), (chapterOf q).isSome)) ∧
    (∃ (m : List (String × InterviewEntry)) (qfin : List String),
      assign_interviews ["ann", "bob", "cam"] ["1.1", "2.2", "3.3"]
          (fun l => l) (fun _ _ => ["1.1", "2.2", "3.3"]) = some (m, qfin) ∧
      (m.map Prod.fst).Perm ["ann", "bob", "cam"] ∧
      (∀ p ∈ (["ann", "bob", "cam"] : List String),
        (m.map Prod.fst).count p = 1 ∧
        (m.map (fun x => x.2.interviewee)).count p = 1 ∧
        (m.map (fun x => x.2.myInterviewer)).count p = 1) ∧
      (∀ p ∈ (["ann", "bob", "cam"] : List String),
        (intervieweeFun m)^[(["ann", "bob", "cam"] : List String).length] p = p ∧
        ∀ k, 0 < k → k < (["ann", "bob", "cam"] : List String).length →
          (intervieweeFun m)^[k] p ≠ p)) :=
  ⟨⟨by decide, by decide, by decide, by decide, by decide⟩,
    assign_interviews_single_cycle ["ann", "bob", "cam"] ["1.1", "2.2", "3.3"]
      (fun l => l) (fun _ _ => ["1.1", "2.2", "3.3"])
      (by decide) (by decide) (by decide) (by decide) (by decide)
      (List.Perm.refl _) (fun _ _ => List.Perm.refl _)⟩

theorem buildRelations_go (l : List (String × InterviewEntry)) :
    ∀ (a1 f1 : List (String × String)),
      (∀ p ∈ l, p.2.interviewee ∉ a1.map Prod.fst) →
      (∀ p ∈ l, p.1 ∉ f1.map Prod.fst) →
      (l.map (fun p => p.2.interviewee)).Nodup →
      (l.map Prod.fst).Nodup →
      l.foldl (fun acc p =>
          (dictInsert acc.1 p.2.interviewee p.1, dictInsert acc.2 p.1 p.2.interviewee))
        (a1, f1) =
      (a1 ++ l.map (fun p => (p.2.interviewee, p.1)),
       f1 ++ l.map (fun p => (p.1, p.2.interviewee))) := by
  induction l with
  | nil => intro a1 f1 _ _ _ _; simp
  | cons p rest ih =>
    intro a1 f1 ha hf hndA hndF
    simp only [List.map_cons, List.nodup_cons] at hndA hndF
    have ha0 : p.2.interviewee ∉ a1.map Prod.fst := ha p (List.mem_cons_self p rest)
    have hf0 : p.1 ∉ f1.map Prod.fst := hf p (List.mem_cons_self p rest)
    have ha' : ∀ x ∈ rest, x.2.interviewee ∉ (a1 ++ [(p.2.interviewee, p.1)]).map Prod.fst := by
      intro x hx
      simp only [List.map_append, List.mem_append, List.map_cons, List.map_nil,
        List.mem_singleton]
      push_neg
      refine ⟨ha x (List.mem_cons_of_mem p hx), ?_⟩
      intro he
      exact hndA.1 (he ▸ List.mem_map.mpr ⟨x, hx, rfl⟩)
    have hf' : ∀ x ∈ rest, x.1 ∉ (f1 ++ [(p.1, p.2.interviewee)]).map Prod.fst := by
      intro x hx
      simp only [List.map_append, List.mem_append, List.map_cons, List.map_nil,
        List.mem_singleton]
      push_neg
      refine ⟨hf x (List.mem_cons_of_mem p hx), ?_⟩
      intro he
      exact hndF.1 (he ▸ List.mem_map.mpr ⟨x, hx, rfl⟩)
    simp only [List.foldl_cons]
    rw [dictInsert_fresh a1 _ _ ha0, dictInsert_fresh f1 _ _ hf0]
    rw [ih (a1 ++ [(p.2.interviewee, p.1)]) (f1 ++ [(p.1, p.2.interviewee)])
      ha' hf' hndA.2 hndF.2]
    simp

theorem assign_interviews_values
    (participants questions : List String)
    (ringOf : List String → List String) (qsh : Nat → Nat → List String)
    (m : List (String × InterviewEntry)) (qfin : List String)
    (hnd : participants.Nodup)
    (hblank : "" ∉ participants)
    (hql : 3 ≤ questions.length) (hq : ∀ q ∈ questions, (chapterOf q).isSome)
    (hperm : (ringOf participants).Perm participants)
    (hsh : ∀ i it, (qsh i it).Perm questions)
    (hrun : assign_interviews participants questions ringOf qsh = some (m, qfin)) :
    m.map Prod.fst = ringOf participants ∧
    (0 < participants.length →
      m.map (fun x => x.2.interviewee) = (ringOf participants).rotate 1) := by
  have hstrip_p : stripTrailingBlank participants = participants :=
    stripTrailingBlank_of_not_blank participants hblank
  have hqblank : "" ∉ questions := by
    intro hmem
    have h1 := hq "" hmem
    rw [chapterOf_blank_none] at h1
    cases h1
  have hstrip_q : stripTrailingBlank questions = questions :=
    stripTrailingBlank_of_not_blank questions hqblank
  have hrnd : (ringOf participants).Nodup := hperm.nodup_iff.mpr hnd
  have hNr : (ringOf participants).length = participants.length := hperm.length_eq
  obtain ⟨m0, q0, hrun0, hkeys, _, hml, hidx⟩ :=
    assign_interviews_spec participants questions ringOf qsh
      (ringOf participants) questions (by rw [hstrip_p]) (by rw [hstrip_q])
      hrnd hq hql hsh
  rw [hrun] at hrun0
  have hm0 : m = m0 ∧ qfin = q0 := by
    have h := Option.some.inj hrun0
    exact ⟨congrArg Prod.fst h, congrArg Prod.snd h⟩
  obtain ⟨rfl, _⟩ : m = m0 ∧ qfin = q0 := hm0
  refine ⟨hkeys, ?_⟩
  intro hNpos
  have hN0 : 0 < (ringOf participants).length := by omega
  apply List.ext
  intro n
  by_cases hn : n < (ringOf participants).length
  · obtain ⟨e, h1, h2, _⟩ := hidx n hn
    rw [List.get?_map, h1, List.get?_rotate hn]
    have hlt : (n + 1) % (ringOf participants).length < (ringOf participants).length :=
      Nat.mod_lt _ hN0
    rw [List.get?_eq_get hlt]
    simp only [Option.map_some']
    rw [h2, List.getD_eq_get (ringOf participants) "" hlt]
  · push_neg at hn
    rw [List.get?_eq_none.mpr (by rw [List.length_map]; omega),
      List.get?_eq_none.mpr (by rw [List.length_rotate]; omega)]

/-- C2: for every interview ring produced by `assign_interviews` (under the
valid-input hypotheses of C1), the two dictionaries built by the relation loop
of `make_shuffle` satisfy, for each `(interviewer, entry)` pair of the ring,
`assessment_reviews[entry.interviewee] = interviewer` and
`feedback_reviews[interviewer] = entry.interviewee`; and in particular for
participants `["ann", "bob", "cam"]` with shuffled ring order
`[bob, cam, ann]`, the assessment relation is
`{cam: bob, ann: cam, bob: ann}` and the feedback relation is
`{bob: cam, cam: ann, ann: bob}` (insertion order as listed). -/
theorem make_shuffle_relations :
    (∀ (participants questions : List String) (ringOf : List String → List String)
        (qsh : Nat → Nat → List String)
        (m : List (String × InterviewEntry)) (qfin : List String),
      participants.Nodup → 2 ≤ participants.length → "" ∉ participants →
      3 ≤ questions.length → (∀ q ∈ questions, (chapterOf q).isSome) →
      (ringOf participants).Perm participants →
      (∀ i it, (qsh i it).Perm questions) →
      assign_interviews participants questions ringOf qsh = some (m, qfin) →
      ∀ pr ∈ m,
        dictLookup (buildRelations m).1 pr.2.interviewee = some pr.1 ∧
        dictLookup (buildRelations m).2 pr.1 = some pr.2.interviewee) ∧
    (assign_interviews ["ann", "bob", "cam"] ["1.1", "2.2", "3.3"]
        (fun _ => ["bob", "cam", "ann"]) (fun _ _ => ["1.1", "2.2", "3.3"])).map
        (fun r => buildRelations r.1) =
      some ([("cam", "bob"), ("ann", "cam"), ("bob", "ann")],
            [("bob", "cam"), ("cam", "ann"), ("ann", "bob")]) := by
  constructor
  · intro participants questions ringOf qsh m qfin hnd hN hblank hql hq hperm hsh hrun pr hpr
    obtain ⟨hkeys, hvals'⟩ :=
      assign_interviews_values participants questions ringOf qsh m qfin
        hnd hblank hql hq hperm hsh hrun
    have hvals := hvals' (by omega)
    have hrnd : (ringOf participants).Nodup := hperm.nodup_iff.mpr hnd
    have hndF : (m.map Prod.fst).Nodup := by rw [hkeys]; exact hrnd
    have hndA : (m.map (fun x => x.2.interviewee)).Nodup := by
      rw [hvals]
      exact (((ringOf participants).rotate_perm 1).nodup_iff).mpr hrnd
    have hbr : buildRelations m =
        (m.map (fun p => (p.2.interviewee, p.1)),
         m.map (fun p => (p.1, p.2.interviewee))) := by
      unfold buildRelations
      rw [buildRelations_go m [] [] (by simp) (by simp) hndA hndF]
      simp
    constructor
    · rw [hbr]
      apply dictLookup_mem_nodup
      · rw [List.map_map]
        exact hndA
      · exact List.mem_map.mpr ⟨pr, hpr, rfl⟩
    · rw [hbr]
      apply dictLookup_mem_nodup
      · rw [List.map_map]
        exact hndF
      · exact List.mem_map.mpr ⟨pr, hpr, rfl⟩
  · decide

/-- Witness for C2's quantified part at the scenario inputs: the ring shuffle
sends `["ann", "bob", "cam"]` to `[bob, cam, ann]`, so bob interviews cam, cam
interviews ann, ann interviews bob. -/
theorem make_shuffle_relations_witness :
    ((["ann", "bob", "cam"] : List String).Nodup ∧
      (["bob", "cam", "ann"] : List String).Perm ["ann", "bob", "cam"] ∧
      assign_interviews ["ann", "bob", "cam"] ["1.1", "2.2", "3.3"]
          (fun _ => ["bob", "cam", "ann"]) (fun _ _ => ["1.1", "2.2", "3.3"]) =
        some ([("bob", ⟨"cam", "ann", ["1.1", "2.2", "3.3"]⟩),
               ("cam", ⟨"ann", "bob", ["1.1", "2.2", "3.3"]⟩),
               ("ann", ⟨"bob", "cam", ["1.1", "2.2", "3.3"]⟩)],
              ["1.1", "2.2", "3.3"])) ∧
    (∀ pr ∈ ([("bob", (⟨"cam", "ann", ["1.1", "2.2", "3.3"]⟩ : InterviewEntry)),
              ("cam", ⟨"ann", "bob", ["1.1", "2.2", "3.3"]⟩),
              ("ann", ⟨"bob", "cam", ["1.1", "2.2", "3.3"]⟩)] :
                List (String × InterviewEntry)),
      dictLookup (buildRelations [("bob", ⟨"cam", "ann", ["1.1", "2.2", "3.3"]⟩),
          ("cam", ⟨"ann", "bob", ["1.1", "2.2", "3.3"]⟩),
          ("ann", ⟨"bob", "cam", ["1.1", "2.2", "3.3"]⟩)]).1 pr.2.interviewee =
        some pr.1 ∧
      dictLookup (buildRelations [("bob", ⟨"cam", "ann", ["1.1", "2.2", "3.3"]⟩),
          ("cam", ⟨"ann", "bob", ["1.1", "2.2", "3.3"]⟩),
          ("ann", ⟨"bob", "cam", ["1.1", "2.2", "3.3"]⟩)]).2 pr.1 =
        some pr.2.interviewee) :=
  ⟨⟨by decide, by decide, by decide⟩,
    make_shuffle_relations.1 ["ann", "bob", "cam"] ["1.1", "2.2", "3.3"]
      (fun _ => ["bob", "cam", "ann"]) (fun _ _ => ["1.1", "2.2", "3.3"])
      [("bob", ⟨"cam", "ann", ["1.1", "2.2", "3.3"]⟩),
       ("cam", ⟨"ann", "bob", ["1.1", "2.2", "3.3"]⟩),
       ("ann", ⟨"bob", "cam", ["1.1", "2.2", "3.3"]⟩)]
      ["1.1", "2.2", "3.3"]
      (by decide) (by decide) (by decide) (by decide) (by decide)
      (by decide) (fun _ _ => List.Perm.refl _) (by decide)⟩

/-- C4 (amended): the claim's "never fails" guarantee holds only for pools
with at least three entries (whose chapter prefixes parse): for every such
pool, every position, and every shuffle oracle, `make_interview` returns an
entry carrying exactly three questions without error, and when no attempt up
to 32 satisfies even the relaxed acceptance condition the pool left behind is
the last (32nd) drawn shuffle, used as-is with no failure signalled.  (For
pools with one or two questions the selection can raise, see the
counterexample.) -/
theorem make_interview_no_failure_big_pool
    (interviewers : List String) (i : Nat) (questions qpool : List String)
    (sh : Nat → List String) (hi : i < interviewers.length)
    (hsh : ∀ it, (sh it).Perm qpool)
    (hq : ∀ q ∈ qpool, (chapterOf q).isSome) (hlen : 3 ≤ qpool.length) :
    ∃ (e : InterviewEntry) (qf : List String),
      make_interview interviewers i questions sh = some (e, qf) ∧
      e.questions.length = 3 ∧
      ((∀ it, it < 32 → checkDraw it (sh it) = some false) → qf = sh 31) := by
  obtain ⟨qf, hdl, hmk, hperm⟩ :=
    make_interview_spec interviewers i questions qpool sh hi hsh hq hlen
  refine ⟨_, qf, hmk, ?_, ?_⟩
  · show (qf.take 3).length = 3
    rw [List.length_take]
    have := hperm.length_eq
    omega
  · intro hcont
    have h31 : drawLoop sh = some (sh 31) :=
      drawLoopAux_all_continue sh hcont 32 0 rfl
    rw [hdl] at h31
    exact Option.some.inj h31

/-- Witness for C4's amended theorem at a three-question pool. -/
theorem make_interview_no_failure_big_pool_witness :
    (0 < (["a", "b"] : List String).length ∧
      (∀ q ∈ (["1.1", "2.1", "3.1"] : List String), (chapterOf q).isSome) ∧
      3 ≤ (["1.1", "2.1", "3.1"] : List String).length) ∧
    (∃ (e : InterviewEntry) (qf : List String),
      make_interview ["a", "b"] 0 ["1.1", "2.1", "3.1"]
          (fun _ => ["1.1", "2.1", "3.1"]) = some (e, qf) ∧
      e.questions.length = 3 ∧
      ((∀ it, it < 32 →
          checkDraw it ((fun _ => ["1.1", "2.1", "3.1"]) it) = some false) →
        qf = (fun _ => ["1.1", "2.1", "3.1"]) 31)) :=
  ⟨⟨by decide, by decide, by decide⟩,
    make_interview_no_failure_big_pool ["a", "b"] 0 ["1.1", "2.1", "3.1"]
      ["1.1", "2.1", "3.1"] (fun _ => ["1.1", "2.1", "3.1"])
      (by decide) (fun _ => List.Perm.refl _) (by decide) (by decide)⟩

theorem make_interview_inv (l : List String) (i : Nat) (qs : List String)
    (sh : Nat → List String) (e : InterviewEntry) (qf : List String)
    (h : make_interview l i qs sh = some (e, qf)) :
    drawLoop sh = some qf := by
  unfold make_interview at h
  cases h1 : (if i + 1 < l.length then l.get? (i + 1) else l.get? 0) with
  | none =>
    cases h2 : (if 0 < i then l.get? (i - 1) else l.get? (l.length - 1)) <;>
      cases h3 : drawLoop sh <;> rw [h1, h2, h3] at h <;> cases h
  | some a =>
    cases h2 : (if 0 < i then l.get? (i - 1) else l.get? (l.length - 1)) with
    | none => cases h3 : drawLoop sh <;> rw [h1, h2, h3] at h <;> cases h
    | some b =>
      rw [h1, h2] at h
      cases h3 : drawLoop sh with
      | none => rw [h3] at h; cases h
      | some qs' =>
        rw [h3] at h
        have hinj := Option.some.inj h
        exact congrArg some (congrArg Prod.snd hinj)

theorem make_interview_result_perm (l : List String) (i : Nat)
    (questions : List String) (sh : Nat → List String)
    (hsh : ∀ it, (sh it).Perm questions) (e : InterviewEntry) (qf : List String)
    (h : make_interview l i questions sh = some (e, qf)) :
    qf.Perm questions := by
  obtain ⟨j, hj⟩ := drawLoopAux_shape sh 32 0 qf (make_interview_inv l i questions sh e qf h)
  rw [hj]
  exact hsh j

theorem assignLoop_pool_perm (ring : List String) (qsh : Nat → Nat → List String)
    (P : List String) (hsh : ∀ i it, (qsh i it).Perm P) :
    ∀ (rem : List String) (i : Nat) (acc : List (String × InterviewEntry))
      (qs : List String) (m : List (String × InterviewEntry)) (qfin : List String),
      qs.Perm P → assignLoop ring qsh rem i acc qs = some (m, qfin) → qfin.Perm P := by
  intro rem
  induction rem with
  | nil =>
    intro i acc qs m qfin hq h
    simp only [assignLoop, Option.some.injEq, Prod.mk.injEq] at h
    rw [← h.2]
    exact hq
  | cons p rest ih =>
    intro i acc qs m qfin hq h
    simp only [assignLoop] at h
    cases hmk : make_interview ring i qs (qsh i) with
    | none => rw [hmk] at h; cases h
    | some pr =>
      rw [hmk] at h
      obtain ⟨e, qs'⟩ := pr
      have hperm2 : qs'.Perm P :=
        (make_interview_result_perm ring i qs (qsh i)
          (fun it => (hsh i it).trans hq.symm) e qs' hmk).trans hq
      exact ih (i + 1) _ qs' m qfin hperm2 h

/-- C8 (amended): the in-place `random.shuffle` makes the final pool ordering
observable to the caller — after `make_interview` returns, the caller's
question list holds the last shuffle drawn by the loop, generally a different
ordering (see the counterexample) — but the pool's *contents* are preserved:
the list left behind by any successful `make_interview` call, and the list
left behind by a whole `assign_interviews` run, is a permutation of the
(stripped) input pool. -/
theorem make_interview_pool_perm :
    (∀ (interviewers : List String) (i : Nat) (questions : List String)
        (sh : Nat → List String) (e : InterviewEntry) (qf : List String),
      (∀ it, (sh it).Perm questions) →
      make_interview interviewers i questions sh = some (e, qf) →
      qf.Perm questions) ∧
    (∀ (interviewers questions : List String) (ringOf : List String → List String)
        (qsh : Nat → Nat → List String)
        (m : List (String × InterviewEntry)) (qfin : List String),
      (∀ i it, (qsh i it).Perm (stripTrailingBlank questions)) →
      assign_interviews interviewers questions ringOf qsh = some (m, qfin) →
      qfin.Perm (stripTrailingBlank questions)) := by
  constructor
  · intro interviewers i questions sh e qf hsh h
    exact make_interview_result_perm interviewers i questions sh hsh e qf h
  · intro interviewers questions ringOf qsh m qfin hsh h
    exact assignLoop_pool_perm (ringOf (stripTrailingBlank interviewers)) qsh
      (stripTrailingBlank questions) hsh (ringOf (stripTrailingBlank interviewers))
      0 [] (stripTrailingBlank questions) m qfin (List.Perm.refl _) h

/-- Witness for C8's amended theorem: a reversing first shuffle is accepted
and the pool handed back is that permutation of the input. -/
theorem make_interview_pool_perm_witness :
    ((["3.1", "1.1", "2.1"] : List String).Perm ["1.1", "2.1", "3.1"] ∧
      make_interview ["a", "b"] 0 ["1.1", "2.1", "3.1"]
          (fun _ => ["3.1", "1.1", "2.1"]) =
        some (⟨"b", "b", ["3.1", "1.1", "2.1"]⟩, ["3.1", "1.1", "2.1"])) ∧
    (["3.1", "1.1", "2.1"] : List String).Perm ["1.1", "2.1", "3.1"] :=
  ⟨⟨by decide, by decide⟩,
    make_interview_pool_perm.1 ["a", "b"] 0 ["1.1", "2.1", "3.1"]
      (fun _ => ["3.1", "1.1", "2.1"]) ⟨"b", "b", ["3.1", "1.1", "2.1"]⟩
      ["3.1", "1.1", "2.1"]
      (fun _ =>
        (by decide : (["3.1", "1.1", "2.1"] : List String).Perm ["1.1", "2.1", "3.1"]))
      (by decide)⟩

/-- C7 (amended): scheduling with an empty question pool fails for every
participant sequence that is still non-empty after the trailing-blank strip
(the claim's "non-empty participant sequence" fails only on the degenerate
all-blank roster `[""]`, see the counterexample): the first question draw
subscripts an empty chapter list and the run aborts with an error. -/
theorem assign_interviews_empty_pool_fails
    (interviewers : List String) (ringOf : List String → List String)
    (qsh : Nat → Nat → List String)
    (hne : stripTrailingBlank interviewers ≠ [])
    (hperm : (ringOf (stripTrailingBlank interviewers)).Perm
      (stripTrailingBlank interviewers))
    (hsh : ∀ i it, (qsh i it).Perm ([] : List String)) :
    assign_interviews interviewers [] ringOf qsh = none := by
  have hq0 : qsh 0 0 = [] := (hsh 0 0).eq_nil
  have hrne : ringOf (stripTrailingBlank interviewers) ≠ [] := by
    intro h
    rw [h] at hperm
    exact hne hperm.symm.eq_nil
  obtain ⟨r, rest, hr⟩ : ∃ r rest, ringOf (stripTrailingBlank interviewers) = r :: rest := by
    cases hcase : ringOf (stripTrailingBlank interviewers) with
    | nil => exact absurd hcase hrne
    | cons a l => exact ⟨a, l, rfl⟩
  have hcd : checkDraw 0 (qsh 0 0) = none := by
    rw [hq0]
    rfl
  have hdl : drawLoop (qsh 0) = none := by
    show drawLoopAux (qsh 0) 32 0 = none
    simp [drawLoopAux, hcd]
  have hmk : make_interview (r :: rest) 0 [] (qsh 0) = none := by
    unfold make_interview
    rw [hdl]
    cases hx : (if 0 + 1 < (r :: rest).length then (r :: rest).get? (0 + 1)
        else (r :: rest).get? 0) <;>
      cases hy : (if 0 < 0 then (r :: rest).get? (0 - 1)
          else (r :: rest).get? ((r :: rest).length - 1)) <;>
        rfl
  show assignLoop (ringOf (stripTrailingBlank interviewers)) qsh
      (ringOf (stripTrailingBlank interviewers)) 0 []
      (stripTrailingBlank []) = none
  rw [hr]
  show assignLoop (r :: rest) qsh (r :: rest) 0 [] [] = none
  simp only [assignLoop, hmk]

/-- Witness for C7's amended theorem at the one-participant roster. -/
theorem assign_interviews_empty_pool_fails_witness :
    (stripTrailingBlank ["a"] ≠ [] ∧
      (stripTrailingBlank ["a"]).Perm (stripTrailingBlank ["a"])) ∧
    assign_interviews ["a"] [] (fun l => l) (fun _ _ => []) = none :=
  ⟨⟨by decide, List.Perm.refl _⟩,
    assign_interviews_empty_pool_fails ["a"] (fun l => l) (fun _ _ => [])
      (by decide) (List.Perm.refl _) (fun _ _ => List.Perm.refl _)⟩

/-- C9 (amended): `assign_interviews` strips exactly one trailing blank entry
from the participant and question sequences (compensating for the final
newline of file input) and schedules over exactly the remaining entries: the
mapping's keys are precisely the shuffled post-strip participant list —
non-trailing blank entries included (see the witness, whose roster has an
interior blank entry) — and no other validation or cleaning happens. -/
theorem assign_interviews_keys_after_strip
    (participants questions : List String)
    (ringOf : List String → List String) (qsh : Nat → Nat → List String)
    (hnd : (stripTrailingBlank participants).Nodup)
    (hperm : (ringOf (stripTrailingBlank participants)).Perm
      (stripTrailingBlank participants))
    (hql : 3 ≤ (stripTrailingBlank questions).length)
    (hq : ∀ q ∈ stripTrailingBlank questions, (chapterOf q).isSome)
    (hsh : ∀ i it, (qsh i it).Perm (stripTrailingBlank questions)) :
    ∃ (m : List (String × InterviewEntry)) (qfin : List String),
      assign_interviews participants questions ringOf qsh = some (m, qfin) ∧
      m.map Prod.fst = ringOf (stripTrailingBlank participants) ∧
      (m.map Prod.fst).Perm (stripTrailingBlank participants) := by
  have hrnd := hperm.nodup_iff.mpr hnd
  obtain ⟨m, qfin, hrun, hkeys, _, _, _⟩ :=
    assign_interviews_spec participants questions ringOf qsh
      (ringOf (stripTrailingBlank participants)) (stripTrailingBlank questions)
      rfl rfl hrnd hq hql hsh
  exact ⟨m, qfin, hrun, hkeys, by rw [hkeys]; exact hperm⟩

/-- Witness for C9's amended theorem at a roster with an interior blank entry:
the blank is scheduled like any other participant; only a trailing blank would
be stripped. -/
theorem assign_interviews_keys_after_strip_witness :
    ((stripTrailingBlank ["a", "", "b"]).Nodup ∧
      3 ≤ (stripTrailingBlank ["1.1", "2.1", "3.1"]).length ∧
      (∀ q ∈ stripTrailingBlank ["1.1", "2.1", "3.1"], (chapterOf q).isSome)) ∧
    (∃ (m : List (String × InterviewEntry)) (qfin : List String),
      assign_interviews ["a", "", "b"] ["1.1", "2.1", "3.1"] (fun l => l)
          (fun _ _ => ["1.1", "2.1", "3.1"]) = some (m, qfin) ∧
      m.map Prod.fst = (fun l => l) (stripTrailingBlank ["a", "", "b"]) ∧
      (m.map Prod.fst).Perm (stripTrailingBlank ["a", "", "b"])) :=
  ⟨⟨by decide, by decide, by decide⟩,
    assign_interviews_keys_after_strip ["a", "", "b"] ["1.1", "2.1", "3.1"]
      (fun l => l) (fun _ _ => ["1.1", "2.1", "3.1"])
      (by decide) (List.Perm.refl _) (by decide) (by decide)
      (fun _ _ => List.Perm.refl _)⟩

theorem reassignStep_resolved (d : String → Option Int) (fid : Int)
    (st : ReassignState) (pair I E : String) (iu eu : Int)
    (hp : partitionColon pair = (I, E))
    (hi : d I = some iu) (hiu : ¬ iu < 0)
    (he : d E = some eu) (heu : ¬ eu < 0) :
    (reassignStep d fid st pair).assessment_reviews =
      dictInsert st.assessment_reviews E I ∧
    (reassignStep d fid st pair).feedback_reviews =
      dictInsert st.feedback_reviews I E ∧
    (reassignStep d fid st pair).interviewers =
      dictInsert st.interviewers iu I ∧
    (∃ c : String, (reassignStep d fid st pair).feedback_comments =
      dictInsert st.feedback_comments eu c) := by
  simp only [reassignStep, hp, hi, he, if_neg hiu, if_neg heu]
  exact ⟨trivial, trivial, trivial, _, rfl⟩

/-- C10: reassignment is idempotent and commutative over independent
overrides.  For pairwise-distinct resolved participants `A, B, C, D`
(resolving to pairwise-distinct non-negative uids `a, b, c, e`, each with a
submission) and override arguments `o1 = "A:B"`, `o2 = "C:D"`, applying the
batch `[o1, o2]` and then re-applying `[o1]` leaves the external assessment
and feedback peer-review stores pointwise identical to the single-batch
result, and applying the two independent overrides in the opposite order
`[o2, o1]` also yields the same final stores. -/
theorem reassign_idempotent_commutative
    (d : String → Option Int) (hasSub : Int → Bool) (fid : Int)
    (o1 o2 A B C D : String) (a b c e : Int)
    (hp1 : partitionColon o1 = (A, B)) (hp2 : partitionColon o2 = (C, D))
    (hA : d A = some a) (hB : d B = some b) (hC : d C = some c) (hD : d D = some e)
    (hia : ¬ a < 0) (hib : ¬ b < 0) (hic : ¬ c < 0) (hie : ¬ e < 0)
    (hsA : hasSub a = true) (hsB : hasSub b = true)
    (hsC : hasSub c = true) (hsD : hasSub e = true)
    (hnames : List.Pairwise (fun x y => x ≠ y) [A, B, C, D])
    (huids : List.Pairwise (fun x y => x ≠ y) [a, b, c, e])
    (sa sf : Int → List Int) :
    (∀ v, (reassignStores d hasSub fid [o1]
            (reassignStores d hasSub fid [o1, o2] sa sf).1
            (reassignStores d hasSub fid [o1, o2] sa sf).2).1 v =
          (reassignStores d hasSub fid [o1, o2] sa sf).1 v ∧
          (reassignStores d hasSub fid [o1]
            (reassignStores d hasSub fid [o1, o2] sa sf).1
            (reassignStores d hasSub fid [o1, o2] sa sf).2).2 v =
          (reassignStores d hasSub fid [o1, o2] sa sf).2 v) ∧
    (∀ v, (reassignStores d hasSub fid [o2, o1] sa sf).1 v =
          (reassignStores d hasSub fid [o1, o2] sa sf).1 v ∧
          (reassignStores d hasSub fid [o2, o1] sa sf).2 v =
          (reassignStores d hasSub fid [o1, o2] sa sf).2 v) := by
  have hnAC : A ≠ C := (List.pairwise_cons.mp hnames).1 C (by simp)
  have hnBD : B ≠ D :=
    (List.pairwise_cons.mp (List.pairwise_cons.mp hnames).2).1 D (by simp)
  have hac : a ≠ c := (List.pairwise_cons.mp huids).1 c (by simp)
  have hbe : b ≠ e :=
    (List.pairwise_cons.mp (List.pairwise_cons.mp huids).2).1 e (by simp)
  -- projections of the override-loop state for the three batches
  obtain ⟨ha1, hf1, hi1, c1, hc1⟩ :=
    reassignStep_resolved d fid ⟨[], [], [], [], [], []⟩ o1 A B a b hp1 hA hia hB hib
  obtain ⟨ha2, hf2, hi2, c2, hc2⟩ :=
    reassignStep_resolved d fid (reassignStep d fid ⟨[], [], [], [], [], []⟩ o1)
      o2 C D c e hp2 hC hic hD hie
  obtain ⟨ha1s, hf1s, hi1s, c1s, hc1s⟩ :=
    reassignStep_resolved d fid ⟨[], [], [], [], [], []⟩ o2 C D c e hp2 hC hic hD hie
  obtain ⟨ha2s, hf2s, hi2s, c2s, hc2s⟩ :=
    reassignStep_resolved d fid (reassignStep d fid ⟨[], [], [], [], [], []⟩ o2)
      o1 A B a b hp1 hA hia hB hib
  have hP12 : processOverrides d fid [o1, o2] =
      reassignStep d fid (reassignStep d fid ⟨[], [], [], [], [], []⟩ o1) o2 := rfl
  have hP1 : processOverrides d fid [o1] =
      reassignStep d fid ⟨[], [], [], [], [], []⟩ o1 := rfl
  have hP21 : processOverrides d fid [o2, o1] =
      reassignStep d fid (reassignStep d fid ⟨[], [], [], [], [], []⟩ o2) o1 := rfl
  have hAR12 : (processOverrides d fid [o1, o2]).assessment_reviews = [(B, A), (D, C)] := by
    rw [hP12, ha2, ha1]
    simp [dictInsert, hnBD]
  have hFR12 : (processOverrides d fid [o1, o2]).feedback_reviews = [(A, B), (C, D)] := by
    rw [hP12, hf2, hf1]
    simp [dictInsert, hnAC]
  have hIV12 : (processOverrides d fid [o1, o2]).interviewers.map Prod.fst = [a, c] := by
    rw [hP12, hi2, hi1]
    simp [dictInsert, hac]
  have hFC12 : (processOverrides d fid [o1, o2]).feedback_comments.map Prod.fst = [b, e] := by
    rw [hP12, hc2, hc1]
    simp [dictInsert, hbe]
  have hAR1 : (processOverrides d fid [o1]).assessment_reviews = [(B, A)] := by
    rw [hP1, ha1]
    simp [dictInsert]
  have hFR1 : (processOverrides d fid [o1]).feedback_reviews = [(A, B)] := by
    rw [hP1, hf1]
    simp [dictInsert]
  have hIV1 : (processOverrides d fid [o1]).interviewers.map Prod.fst = [a] := by
    rw [hP1, hi1]
    simp [dictInsert]
  have hFC1 : (processOverrides d fid [o1]).feedback_comments.map Prod.fst = [b] := by
    rw [hP1, hc1]
    simp [dictInsert]
  have hAR21 : (processOverrides d fid [o2, o1]).assessment_reviews = [(D, C), (B, A)] := by
    rw [hP21, ha2s, ha1s]
    simp [dictInsert, Ne.symm hnBD]
  have hFR21 : (processOverrides d fid [o2, o1]).feedback_reviews = [(C, D), (A, B)] := by
    rw [hP21, hf2s, hf1s]
    simp [dictInsert, Ne.symm hnAC]
  have hIV21 : (processOverrides d fid [o2, o1]).interviewers.map Prod.fst = [c, a] := by
    rw [hP21, hi2s, hi1s]
    simp [dictInsert, Ne.symm hac]
  have hFC21 : (processOverrides d fid [o2, o1]).feedback_comments.map Prod.fst = [e, b] := by
    rw [hP21, hc2s, hc1s]
    simp [dictInsert, Ne.symm hbe]
  -- generic pointwise evaluation of remove-then-add pipelines
  have htwo : ∀ (S : Int → List Int) (X Y Z W : String) (x y z w0 : Int),
      d X = some x → d Y = some y → d Z = some z → d W = some w0 →
      ¬ x < 0 → ¬ y < 0 → ¬ z < 0 → ¬ w0 < 0 →
      hasSub y = true → hasSub w0 = true → y ≠ w0 →
      ∀ v, applyAdd d hasSub (applyRemove hasSub S [y, w0]) [(Y, X), (W, Z)] v =
        if v = w0 then [z] else if v = y then [x] else S v := by
    intro S X Y Z W x y z w0 hX hY hZ hW hx hy hz hw hsy hsw hyw v
    have h1 : ¬ (y < 0 ∨ x < 0) := by omega
    have h2 : ¬ (w0 < 0 ∨ z < 0) := by omega
    simp only [applyRemove, applyAdd, List.foldl_cons, List.foldl_nil,
      hX, hY, hZ, hW, if_neg hy, if_neg hw, if_neg h1, if_neg h2, hsy, hsw, if_true]
    by_cases hvw : v = w0 <;> by_cases hvy : v = y <;> simp_all [storeSet]
  have hone : ∀ (S : Int → List Int) (X Y : String) (x y : Int),
      d X = some x → d Y = some y → ¬ x < 0 → ¬ y < 0 → hasSub y = true →
      ∀ v, applyAdd d hasSub (applyRemove hasSub S [y]) [(Y, X)] v =
        if v = y then [x] else S v := by
    intro S X Y x y hX hY hx hy hsy v
    have h1 : ¬ (y < 0 ∨ x < 0) := by omega
    simp only [applyRemove, applyAdd, List.foldl_cons, List.foldl_nil,
      hX, hY, if_neg hy, if_neg h1, hsy, if_true]
    by_cases hvy : v = y <;> simp_all [storeSet]
  -- pipeline forms of the three runs
  have honce1 : ∀ v, (reassignStores d hasSub fid [o1, o2] sa sf).1 v =
      if v = e then [c] else if v = b then [a] else sa v := by
    intro v
    show applyAdd d hasSub
        (applyRemove hasSub sa
          ((processOverrides d fid [o1, o2]).feedback_comments.map Prod.fst))
        (processOverrides d fid [o1, o2]).assessment_reviews v = _
    rw [hFC12, hAR12]
    exact htwo sa A B C D a b c e hA hB hC hD hia hib hic hie hsB hsD hbe v
  have honce2 : ∀ v, (reassignStores d hasSub fid [o1, o2] sa sf).2 v =
      if v = c then [e] else if v = a then [b] else sf v := by
    intro v
    show applyAdd d hasSub
        (applyRemove hasSub sf
          ((processOverrides d fid [o1, o2]).interviewers.map Prod.fst))
        (processOverrides d fid [o1, o2]).feedback_reviews v = _
    rw [hIV12, hFR12]
    exact htwo sf B A D C b a e c hB hA hD hC hib hia hie hic hsA hsC hac v
  have hswap1 : ∀ v, (reassignStores d hasSub fid [o2, o1] sa sf).1 v =
      if v = b then [a] else if v = e then [c] else sa v := by
    intro v
    show applyAdd d hasSub
        (applyRemove hasSub sa
          ((processOverrides d fid [o2, o1]).feedback_comments.map Prod.fst))
        (processOverrides d fid [o2, o1]).assessment_reviews v = _
    rw [hFC21, hAR21]
    exact htwo sa C D A B c e a b hC hD hA hB hic hie hia hib hsD hsB (Ne.symm hbe) v
  have hswap2 : ∀ v, (reassignStores d hasSub fid [o2, o1] sa sf).2 v =
      if v = a then [b] else if v = c then [e] else sf v := by
    intro v
    show applyAdd d hasSub
        (applyRemove hasSub sf
          ((processOverrides d fid [o2, o1]).interviewers.map Prod.fst))
        (processOverrides d fid [o2, o1]).feedback_reviews v = _
    rw [hIV21, hFR21]
    exact htwo sf D C B A e c b a hD hC hB hA hie hic hib hia hsC hsA (Ne.symm hac) v
  have htw1 : ∀ v, (reassignStores d hasSub fid [o1]
      (reassignStores d hasSub fid [o1, o2] sa sf).1
      (reassignStores d hasSub fid [o1, o2] sa sf).2).1 v =
      if v = b then [a] else (reassignStores d hasSub fid [o1, o2] sa sf).1 v := by
    intro v
    show applyAdd d hasSub
        (applyRemove hasSub (reassignStores d hasSub fid [o1, o2] sa sf).1
          ((processOverrides d fid [o1]).feedback_comments.map Prod.fst))
        (processOverrides d fid [o1]).assessment_reviews v = _
    rw [hFC1, hAR1]
    exact hone (reassignStores d hasSub fid [o1, o2] sa sf).1 A B a b hA hB hia hib hsB v
  have htw2 : ∀ v, (reassignStores d hasSub fid [o1]
      (reassignStores d hasSub fid [o1, o2] sa sf).1
      (reassignStores d hasSub fid [o1, o2] sa sf).2).2 v =
      if v = a then [b] else (reassignStores d hasSub fid [o1, o2] sa sf).2 v := by
    intro v
    show applyAdd d hasSub
        (applyRemove hasSub (reassignStores d hasSub fid [o1, o2] sa sf).2
          ((processOverrides d fid [o1]).interviewers.map Prod.fst))
        (processOverrides d fid [o1]).feedback_reviews v = _
    rw [hIV1, hFR1]
    exact hone (reassignStores d hasSub fid [o1, o2] sa sf).2 B A b a hB hA hib hia hsA v
  constructor
  · intro v
    constructor
    · rw [htw1 v]
      by_cases hvb : v = b
      · rw [if_pos hvb, honce1 v, hvb, if_neg hbe, if_pos rfl]
      · rw [if_neg hvb]
    · rw [htw2 v]
      by_cases hva : v = a
      · rw [if_pos hva, honce2 v, hva, if_neg hac, if_pos rfl]
      · rw [if_neg hva]
  · intro v
    constructor
    · rw [hswap1 v, honce1 v]
      by_cases hve : v = e
      · by_cases hvb : v = b
        · exact absurd (hvb.symm.trans hve) hbe
        · rw [if_neg hvb, if_pos hve, if_pos hve]
      · by_cases hvb : v = b
        · rw [if_pos hvb, if_neg hve, if_pos hvb]
        · rw [if_neg hvb, if_neg hve, if_neg hve, if_neg hvb]
    · rw [hswap2 v, honce2 v]
      by_cases hvc : v = c
      · by_cases hva : v = a
        · exact absurd (hva.symm.trans hvc) hac
        · rw [if_neg hva, if_pos hvc, if_pos hvc]
      · by_cases hva : v = a
        · rw [if_pos hva, if_neg hvc, if_pos hva]
        · rw [if_neg hva, if_neg hvc, if_neg hvc, if_neg hva]

/-- Witness for C10 at the concrete directory
ann ↦ 1, bob ↦ 2, cam ↦ 3, dan ↦ 4, override batch
`["ann:bob", "cam:dan"]`, and initially empty stores. -/
theorem reassign_idempotent_commutative_witness :
    (partitionColon "ann:bob" = ("ann", "bob") ∧
      partitionColon "cam:dan" = ("cam", "dan") ∧
      List.Pairwise (fun x y => x ≠ y) (["ann", "bob", "cam", "dan"] : List String) ∧
      List.Pairwise (fun x y => x ≠ y) ([1, 2, 3, 4] : List Int)) ∧
    (let d0 : String → Option Int := fun s =>
      if s = "ann" then some 1 else if s = "bob" then some 2
      else if s = "cam" then some 3 else if s = "dan" then some 4 else none
    let hs : Int → Bool := fun _ => true
    let s0 : Int → List Int := fun _ => []
    (∀ v, (reassignStores d0 hs 9 ["ann:bob"]
            (reassignStores d0 hs 9 ["ann:bob", "cam:dan"] s0 s0).1
            (reassignStores d0 hs 9 ["ann:bob", "cam:dan"] s0 s0).2).1 v =
          (reassignStores d0 hs 9 ["ann:bob", "cam:dan"] s0 s0).1 v ∧
          (reassignStores d0 hs 9 ["ann:bob"]
            (reassignStores d0 hs 9 ["ann:bob", "cam:dan"] s0 s0).1
            (reassignStores d0 hs 9 ["ann:bob", "cam:dan"] s0 s0).2).2 v =
          (reassignStores d0 hs 9 ["ann:bob", "cam:dan"] s0 s0).2 v) ∧
    (∀ v, (reassignStores d0 hs 9 ["cam:dan", "ann:bob"] s0 s0).1 v =
          (reassignStores d0 hs 9 ["ann:bob", "cam:dan"] s0 s0).1 v ∧
          (reassignStores d0 hs 9 ["cam:dan", "ann:bob"] s0 s0).2 v =
          (reassignStores d0 hs 9 ["ann:bob", "cam:dan"] s0 s0).2 v)) :=
  ⟨⟨by decide, by decide, by decide, by decide⟩,
    reassign_idempotent_commutative
      (fun s =>
        if s = "ann" then some 1 else if s = "bob" then some 2
        else if s = "cam" then some 3 else if s = "dan" then some 4 else none)
      (fun _ => true) 9 "ann:bob" "cam:dan" "ann" "bob" "cam" "dan" 1 2 3 4
      (by decide) (by decide) (by decide) (by decide) (by decide) (by decide)
      (by decide) (by decide) (by decide) (by decide) (by decide) (by decide)
      (by decide) (by decide) (by decide) (by decide)
      (fun _ => []) (fun _ => [])⟩
